import Mathlib

/-!
Shallow embedding of the numeric modeling core of `src/src/utils/mlUtils.ts`
(value counting, train/test splitting, Gaussian elimination, least-squares
regression, metrics, feature extraction), together with theorems settling the
frozen claims about that code.

Modelling conventions:
* JS numbers are modelled as `ℚ`.  All arithmetic performed by the code on the
  inputs considered here is exact in binary floating point, so `ℚ` agrees with
  the JS semantics except at division by zero, where JS produces
  `Infinity`/`NaN` while `ℚ` produces `0`; every place where that difference
  matters is tracked explicitly (zero pivots in the solver, `Option ℚ`
  arithmetic in the metrics evaluator).
* Arrays are `List`s; `a[i]` reads in positions the code keeps in range are
  `List.getD`; reads that can fall out of range in JS (metrics with mismatched
  lengths) are `List.get?` lifted to `Option ℚ`.
* The process-wide `Math.random` that `trainTestSplit` overwrites is made
  explicit as a `MathRandom` state threaded in and out of the function; the
  original browser implementation is an oracle `orac : Nat → ℚ` indexed by the
  number of draws consumed.
* Cells of a data row (`string | number` in TS) are `Cell`; numeric cells are
  restricted to integers so that the JS `String(value)` conversion is the
  decimal numeral.
-/

set_option maxRecDepth 8000

namespace MLUtils

/-- JS cell value: `string | number`; numeric cells are modelled as integers so
that `String(value)` is the decimal numeral. -/
inductive Cell where
  | str (s : String)
  | num (n : Int)
deriving DecidableEq

/-- A data row: mapping from column name to cell value (`DataPoint` in the source). -/
abbrev DataPoint := List (String × Cell)

/-- JS `String(value)` applied to `row[column]`: a missing key reads as
`undefined`, and `String(undefined) = "undefined"`. -/
def strOfCell : Option Cell → String
  | none => "undefined"
  | some (Cell.str s) => s
  | some (Cell.num n) => toString n

/-- JS property read `row[column]`. -/
def getCell (row : DataPoint) (col : String) : Option Cell := row.lookup col

/-- One step of `counts[stringValue] = (counts[stringValue] || 0) + 1`:
increment an existing key in place, or append a fresh key (JS objects remember
insertion order for non-index string keys). -/
def bumpCount : List (String × Nat) → String → List (String × Nat)
  | [], s => [(s, 1)]
  | (k, c) :: rest, s =>
    if k = s then (k, c + 1) :: rest else (k, c) :: bumpCount rest s

/-- The `counts` object built by the `data.forEach` loop of `getValueCounts`,
keyed by `String(row[column])`, in first-encounter order. -/
def buildCounts (data : List DataPoint) (column : String) : List (String × Nat) :=
  data.foldl (fun m row => bumpCount m (strOfCell (getCell row column))) []

/-- JS array-index property key: the canonical decimal numeral of some
`k < 2^32 - 1` (no leading zeros, no sign). -/
def isArrayIndex (s : String) : Bool :=
  match s.toNat? with
  | some k => decide (toString k = s) && decide (k < 4294967295)
  | none => false

/-- Numeric value of an array-index key (`0` as a don't-care for other keys). -/
def keyVal (s : String) : Nat := s.toNat?.getD 0

/-- JS `Object.entries` enumeration order: array-index keys first, in ascending
numeric order, then the remaining string keys in insertion order. -/
def entriesOf (m : List (String × Nat)) : List (String × Nat) :=
  List.insertionSort (fun a b : String × Nat => keyVal a.1 ≤ keyVal b.1)
      (m.filter (fun e => isArrayIndex e.1))
    ++ m.filter (fun e => ! isArrayIndex e.1)

/-- ValueCount entry; the source interface allows `string | number` for
`value`, and `getValueCounts` always stores the string form. -/
structure ValueCount where
  value : Cell
  count : Nat
deriving DecidableEq

/-- Descending-count comparison used by `.sort((a, b) => b.count - a.count)`. -/
def vcGe (a b : ValueCount) : Prop := b.count ≤ a.count

instance : DecidableRel vcGe := fun a b => Nat.decLe b.count a.count

instance : IsTotal ValueCount vcGe := ⟨fun a b => Nat.le_total b.count a.count⟩

instance : IsTrans ValueCount vcGe :=
  ⟨fun _ _ _ h h' => Nat.le_trans h' h⟩

/-- `getValueCounts` from the source: count string representations, enumerate
the counts object with `Object.entries`, and stable-sort by descending count
(JS `Array.prototype.sort` is stable; we model it by the stable
`insertionSort`). -/
def getValueCounts (data : List DataPoint) (column : String) : List ValueCount :=
  List.insertionSort vcGe
    ((entriesOf (buildCounts data column)).map (fun e => ⟨Cell.str e.1, e.2⟩))

/-- Number of rows whose cell in `column` has string representation `s` (the
quantity `valueCounts` is specified to report per distinct value). -/
def occCount (data : List DataPoint) (column s : String) : Nat :=
  (data.filter (fun row => strOfCell (getCell row column) == s)).length

/-! ## Dataset splitter -/

/-- The process-wide `Math.random` function as mutable state: either the
builtin browser source (having consumed `k` draws of an ambient oracle) or the
linear-congruential closure that the seeded branch of `trainTestSplit` assigns
to `Math.random`, carrying its captured `randomState`. -/
inductive MathRandom where
  | builtin (k : Nat)
  | lcg (state : Nat)
deriving DecidableEq

/-- `randomState = (randomState * 9301 + 49297) % 233280`. -/
def lcgNext (s : Nat) : Nat := (s * 9301 + 49297) % 233280

section Splitter

variable (orac : Nat → ℚ)

/-- Calling `Math.random()`: returns a value in `[0, 1)` and the advanced state. -/
def draw : MathRandom → ℚ × MathRandom
  | MathRandom.builtin k => (orac k, MathRandom.builtin (k + 1))
  | MathRandom.lcg s => ((lcgNext s : ℚ) / 233280, MathRandom.lcg (lcgNext s))

/-- JS destructuring swap `[l[i], l[j]] = [l[j], l[i]]`. -/
def jsSwap {α : Type} (l : List α) (i j : Nat) (d : α) : List α :=
  let a := l.getD j d
  let b := l.getD i d
  (l.set i a).set j b

/-- The Fisher–Yates loop
`for (let i = length - 1; i > 0; i--) { j = floor(random() * (i + 1)); swap i j }`;
the counter argument is the loop variable `i`. -/
def shuffleAux : List Nat → MathRandom → Nat → List Nat × MathRandom
  | l, g, 0 => (l, g)
  | l, g, i + 1 =>
    let rg := draw orac g
    let j := (⌊rg.1 * (i + 2 : ℚ)⌋).toNat
    shuffleAux (jsSwap l (i + 1) j 0) rg.2 i

/-- Index bookkeeping of `trainTestSplit`: build `0..n-1`, shuffle (seeding
replaces the global random source by the LCG closure first), then slice at
`trainCount = n - floor(n * testSize)`.  Returns `(trainIndices, testIndices)`
and the state `Math.random` is left in. -/
def splitIndices (n : Nat) (testSize : ℚ) (randomState : Option Nat)
    (g : MathRandom) : (List Nat × List Nat) × MathRandom :=
  let g0 := match randomState with
    | some s => MathRandom.lcg s
    | none => g
  let shuffled := shuffleAux orac (List.range n) g0 (n - 1)
  let testCount := (⌊(n : ℚ) * testSize⌋).toNat
  let trainCount := n - testCount
  ((shuffled.1.take trainCount, shuffled.1.drop trainCount), shuffled.2)

/-- Result record of `trainTestSplit` (the `TrainTestSplit` interface). -/
structure TrainTestSplitQ where
  xTrain : List (List ℚ)
  xTest : List (List ℚ)
  yTrain : List ℚ
  yTest : List ℚ
deriving DecidableEq

/-- `trainTestSplit(X, y, testSize, randomState?)`, with the global
`Math.random` state passed in and returned (the source mutates it). -/
def trainTestSplit (X : List (List ℚ)) (y : List ℚ) (testSize : ℚ)
    (randomState : Option Nat) (g : MathRandom) : TrainTestSplitQ × MathRandom :=
  let si := splitIndices orac X.length testSize randomState g
  ({ xTrain := si.1.1.map (fun i => X.getD i [])
     xTest := si.1.2.map (fun i => X.getD i [])
     yTrain := si.1.1.map (fun i => y.getD i 0)
     yTest := si.1.2.map (fun i => y.getD i 0) }, si.2)

end Splitter

/-! ## Gaussian elimination -/

/-- Matrix entry read `M[r][c]` (in range wherever the code reads it). -/
def getE (M : List (List ℚ)) (r c : Nat) : ℚ := (M.getD r []).getD c 0

/-- Pivot search: largest `|augmented[k][i]|` over `k = i+1 .. n-1`, starting
from `maxRow = i`, strict `>` so the first maximum wins. -/
def findMaxRow (M : List (List ℚ)) (n i : Nat) : Nat :=
  (List.range' (i + 1) (n - (i + 1))).foldl
    (fun maxRow k => if |getE M k i| > |getE M maxRow i| then k else maxRow) i

/-- Row update of the inner elimination loop: `factor = row[i] / pivotRow[i]`
(computed once, before any write), then `row[j] -= factor * pivotRow[j]` for
`j = i .. n`.  In `ℚ` a zero pivot makes `factor = 0` where JS would produce
`Infinity`/`NaN`. -/
def elimRow (n : Nat) (pivotRow : List ℚ) (i : Nat) (row : List ℚ) : List ℚ :=
  let factor := row.getD i 0 / pivotRow.getD i 0
  (List.range' i (n + 1 - i)).foldl
    (fun r j => r.set j (r.getD j 0 - factor * pivotRow.getD j 0)) row

/-- Eliminate below row `i`: `for (k = i+1; k < n; k++)` rewrite row `k`. -/
def elimBelow (M : List (List ℚ)) (n i : Nat) : List (List ℚ) :=
  (List.range' (i + 1) (n - (i + 1))).foldl
    (fun M' k => M'.set k (elimRow n (M'.getD i []) i (M'.getD k []))) M

/-- Forward elimination: for each pivot column, swap the partial-pivot row into
place and eliminate below it.  No zero-pivot check is performed anywhere. -/
def forwardEliminate (M : List (List ℚ)) (n : Nat) : List (List ℚ) :=
  (List.range n).foldl
    (fun M' i => elimBelow (jsSwap M' i (findMaxRow M' n i) []) n i) M

/-- Augmented matrix `A.map((row, i) => [...row, b[i]])`. -/
def geAugment (A : List (List ℚ)) (b : List ℚ) : List (List ℚ) :=
  A.mapIdx (fun idx row => row ++ [b.getD idx 0])

/-- Back substitution, from row `n-1` down to row `i`; `acc` holds the already
computed `solution[i+1..n-1]`.  `solution[i] = (aug[i][n] - Σ aug[i][j]·sol[j]) / aug[i][i]`,
with the division performed unconditionally (zero pivot: `ℚ` gives `0`, JS
gives `NaN`/`Infinity`). -/
def backSubstAux (M : List (List ℚ)) (n : Nat) : Nat → List ℚ → List ℚ
  | 0, acc => acc
  | i + 1, acc =>
    let row := M.getD i []
    let s := (List.range' (i + 1) (n - (i + 1))).foldl
      (fun s j => s - row.getD j 0 * acc.getD (j - (i + 1)) 0) (row.getD n 0)
    backSubstAux M n i ((s / row.getD i 0) :: acc)

/-- `gaussianElimination(A, b)` from the source: always returns a vector,
signalling nothing on singular input. -/
def gaussianElimination (A : List (List ℚ)) (b : List ℚ) : List ℚ :=
  let n := A.length
  backSubstAux (forwardEliminate (geAugment A b) n) n n []

/-! ## Least squares -/

/-- Accumulation `XTX[i][j] += X[k][i] * X[k][j]` over `k = 0 .. n-1`. -/
def xtxEntry (X : List (List ℚ)) (n i j : Nat) : ℚ :=
  (List.range n).foldl (fun s k => s + getE X k i * getE X k j) 0

/-- Accumulation `XTy[i] += X[k][i] * y[k]` over `k = 0 .. n-1`. -/
def xtyEntry (X : List (List ℚ)) (y : List ℚ) (n i : Nat) : ℚ :=
  (List.range n).foldl (fun s k => s + getE X k i * y.getD k 0) 0

/-- `solveLeastSquares` from the source: build `XᵗX` and `Xᵗy` entrywise by the
triple loop and hand them to `gaussianElimination`. -/
def solveLeastSquares (X : List (List ℚ)) (y : List ℚ) : List ℚ :=
  let n := X.length
  let p := (X.headD []).length
  let XTX := (List.range p).map (fun i => (List.range p).map (fun j => xtxEntry X n i j))
  let XTy := (List.range p).map (fun i => xtyEntry X y n i)
  gaussianElimination XTX XTy

/-- The prediction closure body: `intercept + row.reduce((s, v, idx) => s + v * coefficients[idx], 0)`. -/
def predictRow (intercept : ℚ) (coefficients : List ℚ) (row : List ℚ) : ℚ :=
  intercept + (List.range row.length).foldl
    (fun s idx => s + row.getD idx 0 * coefficients.getD idx 0) 0

/-- `calculateR2` from the source: `1 - SSres / SStot` on the training data
(`ℚ` renders the JS `NaN` of a zero `SStot` as `0`). -/
def calculateR2 (X : List (List ℚ)) (y : List ℚ) (intercept : ℚ)
    (coefficients : List ℚ) : ℚ :=
  let predictions := X.map (predictRow intercept coefficients)
  let yMean := y.sum / (y.length : ℚ)
  let totalSumSquares := (y.map (fun v => (v - yMean) ^ 2)).sum
  let residualSumSquares := (List.range y.length).foldl
    (fun s idx => s + (y.getD idx 0 - predictions.getD idx 0) ^ 2) 0
  1 - residualSumSquares / totalSumSquares

/-- The duck-typed model object returned by `trainLinearRegression`, minus the
`predict` closure (whose body is `predictRow`). -/
structure Model where
  coefficients : List ℚ
  intercept : ℚ
  score : ℚ
deriving DecidableEq

/-- Failure modes.  `typeError` is the uncaught JS `TypeError` thrown by
reading `X[0].length` on an empty `X`; `trainingError` is the catch-rethrow
`'Unable to train model…'` (dead code: nothing inside the `try` throws).
`insufficientData` and `singularSystem` are the spec's §7 taxonomy, included
for comparison; the source never produces them. -/
inductive JsError where
  | typeError
  | trainingError
  | insufficientData
  | singularSystem
deriving DecidableEq

/-- Modelled from the spec: the `p = 1` branch delegates to the external
`ml-regression` package's `SimpleLinearRegression`, whose code is not in the
repository; §4.3 specifies it as slope = covariance(x,y)/variance(x),
intercept = mean(y) − slope·mean(x), with fit score R². -/
def simpleLinearRegression (xs ys : List ℚ) : Model :=
  let n : ℚ := (xs.length : ℚ)
  let xbar := xs.sum / n
  let ybar := ys.sum / n
  let cov := ((xs.zip ys).map (fun p => (p.1 - xbar) * (p.2 - ybar))).sum
  let varx := (xs.map (fun v => (v - xbar) ^ 2)).sum
  let slope := cov / varx
  let intercept := ybar - slope * xbar
  { coefficients := [slope]
    intercept := intercept
    score := calculateR2 (xs.map (fun v => [v])) ys intercept [slope] }

/-- `trainLinearRegression(X, y)`.  An empty `X` makes the very first
expression `X[0].length` throw a `TypeError`; otherwise the single-feature
branch uses the external simple regression and the multi-feature branch builds
the design matrix `[1, ...row]`, solves the normal equations, and reads the
intercept and slopes out of the solution. -/
def trainLinearRegression (X : List (List ℚ)) (y : List ℚ) : Except JsError Model :=
  match X with
  | [] => Except.error JsError.typeError
  | x0 :: _ =>
    if x0.length = 1 then
      Except.ok (simpleLinearRegression (X.map (fun row => row.getD 0 0)) y)
    else
      let designMatrix := X.map (fun row => 1 :: row)
      let coefficients := solveLeastSquares designMatrix y
      let intercept := coefficients.getD 0 0
      let slopes := coefficients.drop 1
      Except.ok { coefficients := slopes
                  intercept := intercept
                  score := calculateR2 X y intercept slopes }

/-! ## Spec-side formulation of the normal equations (for the refinement claim) -/

/-- Transpose of an `? × p` matrix, written from the spec's mathematics. -/
def transposeSpec (M : List (List ℚ)) (p : Nat) : List (List ℚ) :=
  (List.range p).map (fun i => M.map (fun row => row.getD i 0))

/-- Dot product. -/
def dotQ (a b : List ℚ) : ℚ := (List.zipWith (· * ·) a b).sum

/-- Spec-side `Dᵗ·D`: entry `(i, j)` is the dot product of columns `i` and `j`. -/
def specNormalMatrix (D : List (List ℚ)) : List (List ℚ) :=
  let T := transposeSpec D (D.headD []).length
  T.map (fun ri => T.map (fun rj => dotQ ri rj))

/-- Spec-side `Dᵗ·y`. -/
def specNormalVector (D : List (List ℚ)) (y : List ℚ) : List ℚ :=
  (transposeSpec D (D.headD []).length).map (fun ri => dotQ ri y)

/-- Spec-side β: prepend the constant 1 column to `X`, form the normal
equations `Dᵗ·D·β = Dᵗ·y`, and solve them with the Gaussian-elimination solver. -/
def specBeta (X : List (List ℚ)) (y : List ℚ) : List ℚ :=
  let D := X.map (fun row => 1 :: row)
  gaussianElimination (specNormalMatrix D) (specNormalVector D y)

/-! ## Metrics -/

/-- JS number arithmetic where `none` stands for a non-finite value
(`NaN`/`±Infinity`, e.g. from reading past the end of an array or dividing by
zero); non-finite values propagate through every operation. -/
def jadd : Option ℚ → Option ℚ → Option ℚ
  | some a, some b => some (a + b)
  | _, _ => none

/-- Subtraction on possibly non-finite JS numbers. -/
def jsub : Option ℚ → Option ℚ → Option ℚ
  | some a, some b => some (a - b)
  | _, _ => none

/-- Multiplication on possibly non-finite JS numbers. -/
def jmul : Option ℚ → Option ℚ → Option ℚ
  | some a, some b => some (a * b)
  | _, _ => none

/-- Division on possibly non-finite JS numbers: a zero denominator yields a
non-finite result (`NaN` or `±Infinity`). -/
def jdiv : Option ℚ → Option ℚ → Option ℚ
  | some a, some b => if b = 0 then none else some (a / b)
  | _, _ => none

/-- Absolute value on possibly non-finite JS numbers. -/
def jabs : Option ℚ → Option ℚ
  | some a => some |a|
  | none => none

/-- The `ModelMetrics` record (`NaN`-valued entries are `none`). -/
structure MetricsQ where
  r2 : Option ℚ
  mse : Option ℚ
  mae : Option ℚ
deriving DecidableEq

/-- `calculateMetrics(yTrue, yPred)` from the source: no validation of any
kind; the sums run over the indices of `yTrue`, reading `yPred[i]` even when
it does not exist, and every division is unconditional. -/
def calculateMetrics (yTrue yPred : List ℚ) : MetricsQ :=
  let n := yTrue.length
  let d := fun i => jsub (some (yTrue.getD i 0)) (yPred.get? i)
  let sumSq := (List.range n).foldl (fun s i => jadd s (jmul (d i) (d i))) (some 0)
  let mse := jdiv sumSq (some (n : ℚ))
  let sumAbs := (List.range n).foldl (fun s i => jadd s (jabs (d i))) (some 0)
  let mae := jdiv sumAbs (some (n : ℚ))
  let yMean := jdiv (some yTrue.sum) (some (n : ℚ))
  let tss := yTrue.foldl
    (fun s v => jadd s (jmul (jsub (some v) yMean) (jsub (some v) yMean))) (some 0)
  let r2 := jsub (some 1) (jdiv sumSq tss)
  { r2 := r2, mse := mse, mae := mae }

/-! ## Feature extraction -/

/-- Numeric coercion of a cell: a number is kept, a string goes through
`parseFloat` (modelled by the ambient parse function `pf`, `none` meaning
`NaN`), and a missing cell is `String(undefined) = "undefined"` fed to
`parseFloat`. -/
def cellToNum (pf : String → Option ℚ) : Option Cell → Option ℚ
  | some (Cell.num n) => some (n : ℚ)
  | some (Cell.str s) => pf s
  | none => pf "undefined"

/-- `extractFeatures(data, featureColumns, targetColumn)` from the source:
per row, coerce each feature cell (unparsable becomes `0`) and push the row
onto `X`/`y` only when the target value parses. -/
def extractFeatures (pf : String → Option ℚ) (data : List DataPoint)
    (featureColumns : List String) (targetColumn : String) :
    List (List ℚ) × List ℚ :=
  data.foldl
    (fun acc row =>
      let features := featureColumns.map
        (fun col => (cellToNum pf (getCell row col)).getD 0)
      match cellToNum pf (getCell row targetColumn) with
      | some t => (acc.1 ++ [features], acc.2 ++ [t])
      | none => acc)
    ([], [])

/-- A concrete parse function for witnesses: integral decimal strings. -/
def pfInt (s : String) : Option ℚ := s.toInt?.map (fun n => (n : ℚ))

/-! ## Helper lemmas -/

/-- A shuffle whose random source is the LCG closure never consults the
builtin oracle. -/
theorem shuffleAux_lcg_const (orac orac' : Nat → ℚ) :
    ∀ (c : Nat) (l : List Nat) (s : Nat),
      shuffleAux orac l (MathRandom.lcg s) c = shuffleAux orac' l (MathRandom.lcg s) c := by
  intro c
  induction c with
  | zero => intro l s; rfl
  | succ c ih =>
    intro l s
    simp only [shuffleAux, draw]
    exact ih _ _

/-- The random state a shuffle ends in is the incoming state advanced once per
draw, independently of the list being shuffled. -/
theorem shuffleAux_snd (orac : Nat → ℚ) :
    ∀ (c : Nat) (l : List Nat) (g : MathRandom),
      (shuffleAux orac l g c).2 = (fun h => (draw orac h).2)^[c] g := by
  intro c
  induction c with
  | zero => intro l g; rfl
  | succ c ih =>
    intro l g
    simp only [shuffleAux]
    rw [ih, Function.iterate_succ_apply]

/-- A seeded call of `trainTestSplit` is a pure function of its arguments:
the incoming global random state and the builtin oracle are irrelevant. -/
theorem trainTestSplit_seeded_const (orac : Nat → ℚ) (X : List (List ℚ))
    (y : List ℚ) (ts : ℚ) (s : Nat) (g : MathRandom) :
    trainTestSplit orac X y ts (some s) g =
      trainTestSplit (fun _ => 0) X y ts (some s) (MathRandom.builtin 0) := by
  simp only [trainTestSplit, splitIndices]
  rw [shuffleAux_lcg_const orac (fun _ => 0)]

/-- Writing one position of a list changes its multiset of elements by
removing the old entry and adding the new one. -/
theorem count_set_add {α : Type} [DecidableEq α] (d : α) :
    ∀ (l : List α) (i : Nat), i < l.length → ∀ (a c : α),
      (l.set i a).count c + (if l.getD i d = c then 1 else 0) =
        l.count c + (if a = c then 1 else 0) := by
  intro l
  induction l with
  | nil => intro i h; simp at h
  | cons x xs ih =>
    intro i h a c
    cases i with
    | zero =>
      simp only [List.set_cons_zero, List.getD_cons_zero, List.count_cons,
        beq_iff_eq]
      generalize (if a = c then 1 else 0) = u
      generalize (if x = c then 1 else 0) = v
      omega
    | succ i =>
      simp only [List.set_cons_succ, List.getD_cons_succ, List.count_cons,
        beq_iff_eq]
      have hlen : i < xs.length := by simpa using Nat.lt_of_succ_lt_succ h
      have hx := ih i hlen a c
      generalize hu : (if a = c then 1 else 0) = u at hx ⊢
      generalize hv : (if x = c then 1 else 0) = v
      generalize hw : (if xs.getD i d = c then 1 else 0) = w at hx ⊢
      omega

/-- The JS destructuring swap of two in-range positions permutes the list. -/
theorem jsSwap_perm {α : Type} [DecidableEq α] (l : List α) (i j : Nat) (d : α)
    (hi : i < l.length) (hj : j < l.length) : (jsSwap l i j d).Perm l := by
  rw [List.perm_iff_count]
  intro c
  have hj' : j < (l.set i (l.getD j d)).length := by simpa using hj
  have h1 := count_set_add d (l.set i (l.getD j d)) j hj' (l.getD i d) c
  have h2 := count_set_add d l i hi (l.getD j d) c
  by_cases hij : i = j
  · subst hij
    have hgd : (l.set i (l.getD i d)).getD i d = l.getD i d := by
      simp [List.getD_eq_getElem?_getD, List.getElem?_set_self (by simpa using hi)]
    rw [hgd] at h1
    simp only [jsSwap]
    omega
  · have hgd : (l.set i (l.getD j d)).getD j d = l.getD j d := by
      simp [List.getD_eq_getElem?_getD, List.getElem?_set_ne hij]
    rw [hgd] at h1
    simp only [jsSwap]
    generalize hu : (if l.getD j d = c then 1 else 0) = u at h1 h2
    generalize hv : (if l.getD i d = c then 1 else 0) = v at h1 h2
    omega

/-- Every value `Math.random()` produces lies in `[0, 1)`: the builtin source
by assumption on the oracle, the LCG closure because its state is reduced
`mod 233280` before being divided by `233280`. -/
theorem draw_mem_Ico (orac : Nat → ℚ) (horac : ∀ k, 0 ≤ orac k ∧ orac k < 1)
    (g : MathRandom) : 0 ≤ (draw orac g).1 ∧ (draw orac g).1 < 1 := by
  cases g with
  | builtin k => exact horac k
  | lcg s =>
    simp only [draw]
    constructor
    · exact div_nonneg (by positivity) (by norm_num)
    · rw [div_lt_one (by norm_num)]
      have h : lcgNext s < 233280 := Nat.mod_lt _ (by norm_num)
      exact_mod_cast h

/-- `floor(r * m)` is a valid index below `m` whenever `r ∈ [0, 1)`. -/
theorem floor_mul_toNat_lt (r : ℚ) (m : Nat) (_h0 : 0 ≤ r) (h1 : r < 1)
    (hm : 0 < m) : (⌊r * (m : ℚ)⌋).toNat < m := by
  have hlt : r * (m : ℚ) < ((m : ℤ) : ℚ) := by
    push_cast
    calc r * (m : ℚ) < 1 * (m : ℚ) := by
          exact mul_lt_mul_of_pos_right h1 (by exact_mod_cast hm)
      _ = (m : ℚ) := one_mul _
  have := Int.floor_lt.mpr hlt
  omega

/-- The Fisher–Yates loop of `trainTestSplit` permutes the index list, for any
state of the random source (the LCG closure unconditionally, the builtin
source by the oracle assumption). -/
theorem shuffleAux_perm (orac : Nat → ℚ) (horac : ∀ k, 0 ≤ orac k ∧ orac k < 1) :
    ∀ (c : Nat) (l : List Nat) (g : MathRandom), c < l.length →
      (shuffleAux orac l g c).1.Perm l := by
  intro c
  induction c with
  | zero => intro l g _; exact List.Perm.refl l
  | succ c ih =>
    intro l g hc
    simp only [shuffleAux]
    have hr := draw_mem_Ico orac horac g
    have hj : (⌊(draw orac g).1 * ((c : ℚ) + 2)⌋).toNat < c + 2 := by
      have h := floor_mul_toNat_lt (draw orac g).1 (c + 2) hr.1 hr.2 (by omega)
      simpa using h
    have hswap : (jsSwap l (c + 1) ((⌊(draw orac g).1 * ((c : ℚ) + 2)⌋).toNat) 0).Perm l :=
      jsSwap_perm l _ _ 0 hc (by omega)
    have hlen : c < (jsSwap l (c + 1) ((⌊(draw orac g).1 * ((c : ℚ) + 2)⌋).toNat) 0).length := by
      rw [hswap.length_eq]
      omega
    exact (ih _ _ hlen).trans hswap

/-- The shuffled index list of `trainTestSplit` is a permutation of `0..n-1`. -/
theorem shuffle_range_perm (orac : Nat → ℚ)
    (horac : ∀ k, 0 ≤ orac k ∧ orac k < 1) (n : Nat) (g : MathRandom) :
    (shuffleAux orac (List.range n) g (n - 1)).1.Perm (List.range n) := by
  cases n with
  | zero => exact List.Perm.refl _
  | succ n =>
    exact shuffleAux_perm orac horac n (List.range (n + 1)) g (by simp)

/-- `floor(n * ts) ≤ n` whenever `ts ≤ 1`. -/
theorem testCount_le (n : Nat) (ts : ℚ) (h1 : ts ≤ 1) :
    (⌊(n : ℚ) * ts⌋).toNat ≤ n := by
  have hle : (n : ℚ) * ts ≤ (n : ℚ) := by
    calc (n : ℚ) * ts ≤ (n : ℚ) * 1 :=
          mul_le_mul_of_nonneg_left h1 (by positivity)
      _ = (n : ℚ) := mul_one _
  have := Int.floor_le_floor hle
  rw [Int.floor_natCast] at this
  omega

/-- Slicing any permutation of `0..n-1` at `n - tc` yields complementary
pieces of sizes `n - tc` and `tc`. -/
theorem partition_core (n tc : Nat) (L : List Nat)
    (hperm : L.Perm (List.range n)) (htc : tc ≤ n) :
    (L.drop (n - tc)).length = tc ∧
      (L.take (n - tc)).length = n - tc ∧
      List.Disjoint (L.take (n - tc)) (L.drop (n - tc)) ∧
      ((L.take (n - tc)) ++ (L.drop (n - tc))).Perm (List.range n) := by
  have hlen : L.length = n := hperm.length_eq.trans (List.length_range _)
  have hnd : L.Nodup := hperm.nodup_iff.mpr (List.nodup_range _)
  refine ⟨?_, ?_, ?_, ?_⟩
  · rw [List.length_drop, hlen]; omega
  · rw [List.length_take, hlen]; omega
  · exact List.disjoint_take_drop hnd (le_refl _)
  · rw [List.take_append_drop]; exact hperm

/-- Accumulating `s + f x` over a list is the initial value plus the sum of
the mapped list. -/
theorem foldl_add_eq_sum {β : Type} (f : β → ℚ) :
    ∀ (l : List β) (a : ℚ), l.foldl (fun s x => s + f x) a = a + (l.map f).sum := by
  intro l
  induction l with
  | nil => intro a; simp
  | cons x xs ih =>
    intro a
    simp only [List.foldl_cons, List.map_cons, List.sum_cons, ih]
    ring

/-- Reading a list positionally over `range` of its length is the list itself
(mapped through `f`). -/
theorem map_range_getD {β γ : Type} (f : β → γ) (d : β) :
    ∀ l : List β,
      (List.range l.length).map (fun k => f (l.getD k d)) = l.map f := by
  intro l
  induction l with
  | nil => simp
  | cons x xs ih =>
    simp only [List.length_cons, List.range_succ_eq_map, List.map_cons,
      List.getD_cons_zero, List.map_map]
    refine congrArg (f x :: ·) ?_
    have hpt : List.map ((fun k => f ((x :: xs).getD k d)) ∘ Nat.succ)
        (List.range xs.length) =
        List.map (fun k => f (xs.getD k d)) (List.range xs.length) :=
      List.map_congr_left (fun k _ => by
        simp [Function.comp, List.getElem?_cons_succ])
    rw [hpt]
    exact ih

/-- Zipping two images of the same list multiplies pointwise. -/
theorem zipWith_mul_map_same {β : Type} (f g : β → ℚ) :
    ∀ l : List β,
      List.zipWith (· * ·) (l.map f) (l.map g) = l.map (fun x => f x * g x) := by
  intro l
  induction l with
  | nil => rfl
  | cons x xs ih => simp [ih]

/-- Dot product of a mapped column with an equally long plain vector, read
positionally. -/
theorem dotQ_map_eq {β : Type} (f : β → ℚ) (d : β) :
    ∀ (l : List β) (y : List ℚ), y.length = l.length →
      dotQ (l.map f) y =
        ((List.range l.length).map (fun k => f (l.getD k d) * y.getD k 0)).sum := by
  intro l
  induction l with
  | nil => intro y _; simp [dotQ]
  | cons x xs ih =>
    intro y hlen
    cases y with
    | nil => simp at hlen
    | cons v ys =>
      simp only [List.length_cons, List.range_succ_eq_map, List.map_cons,
        List.getD_cons_zero, List.map_map, List.sum_cons]
      have hys : ys.length = xs.length := by simpa using hlen
      simp only [dotQ, List.map_cons, List.zipWith_cons_cons, List.sum_cons]
      refine congrArg (f x * v + ·) ?_
      have hih := ih ys hys
      simp only [dotQ] at hih
      rw [hih]
      refine congrArg List.sum ?_
      refine (List.map_congr_left (fun k _ => ?_)).symm
      simp [Function.comp, List.getElem?_cons_succ]

/-- The triple-loop entry `XTX[i][j]` is the dot product of columns `i` and
`j` of the design matrix. -/
theorem xtxEntry_eq_dot (D : List (List ℚ)) (i j : Nat) :
    xtxEntry D D.length i j =
      dotQ (D.map (fun row => row.getD i 0)) (D.map (fun row => row.getD j 0)) := by
  simp only [xtxEntry, getE]
  rw [foldl_add_eq_sum (fun k => (D.getD k []).getD i 0 * (D.getD k []).getD j 0)
    (List.range D.length) 0]
  rw [zero_add]
  rw [dotQ, zipWith_mul_map_same]
  rw [← map_range_getD (fun row : List ℚ => row.getD i 0 * row.getD j 0) ([] : List ℚ) D]

/-- The loop entry `XTy[i]` is the dot product of column `i` with `y`. -/
theorem xtyEntry_eq_dot (D : List (List ℚ)) (y : List ℚ) (i : Nat)
    (hlen : y.length = D.length) :
    xtyEntry D y D.length i = dotQ (D.map (fun row => row.getD i 0)) y := by
  simp only [xtyEntry, getE]
  rw [foldl_add_eq_sum (fun k => (D.getD k []).getD i 0 * y.getD k 0)
    (List.range D.length) 0]
  rw [zero_add]
  rw [dotQ_map_eq (fun row : List ℚ => row.getD i 0) ([] : List ℚ) D y hlen]

/-- The source's `solveLeastSquares` hands `gaussianElimination` exactly the
spec's normal-equations system `Dᵗ·D`, `Dᵗ·y`. -/
theorem solveLeastSquares_eq_spec (D : List (List ℚ)) (y : List ℚ)
    (hlen : y.length = D.length) :
    solveLeastSquares D y =
      gaussianElimination (specNormalMatrix D) (specNormalVector D y) := by
  have hM : (List.range (D.headD []).length).map
        (fun i => (List.range (D.headD []).length).map (fun j => xtxEntry D D.length i j)) =
      specNormalMatrix D := by
    simp only [specNormalMatrix, transposeSpec, List.map_map]
    refine List.map_congr_left ?_
    intro i _
    simp only [Function.comp]
    refine List.map_congr_left ?_
    intro j _
    exact xtxEntry_eq_dot D i j
  have hv : (List.range (D.headD []).length).map (fun i => xtyEntry D y D.length i) =
      specNormalVector D y := by
    simp only [specNormalVector, transposeSpec, List.map_map]
    refine List.map_congr_left ?_
    intro i _
    simp only [Function.comp]
    exact xtyEntry_eq_dot D y i hlen
  simp only [solveLeastSquares]
  rw [hM, hv]

/-- Unrolling the accumulating loop of `extractFeatures`: the pushed rows are
the filtered/mapped rows appended to the accumulator. -/
theorem extractFeatures_fold (pf : String → Option ℚ) (fc : List String)
    (tc : String) :
    ∀ (data : List DataPoint) (acc : List (List ℚ) × List ℚ),
      data.foldl
        (fun acc row =>
          let features := fc.map (fun col => (cellToNum pf (getCell row col)).getD 0)
          match cellToNum pf (getCell row tc) with
          | some t => (acc.1 ++ [features], acc.2 ++ [t])
          | none => acc)
        acc =
      (acc.1 ++ (data.filter (fun row => (cellToNum pf (getCell row tc)).isSome)).map
          (fun row => fc.map (fun col => (cellToNum pf (getCell row col)).getD 0)),
        acc.2 ++ data.filterMap (fun row => cellToNum pf (getCell row tc))) := by
  intro data
  induction data with
  | nil => intro acc; simp
  | cons row rows ih =>
    intro acc
    simp only [List.foldl_cons, List.filter_cons, List.filterMap_cons]
    cases htgt : cellToNum pf (getCell row tc) with
    | none =>
      simp only [htgt, Option.isSome_none, Bool.false_eq_true, if_neg,
        reduceIte]
      exact ih acc
    | some t =>
      simp only [htgt, Option.isSome_some, if_pos, reduceIte, List.map_cons]
      rw [ih]
      simp

/-- Rows whose image under a partial function is defined are in bijection with
the successfully mapped values. -/
theorem filter_isSome_length {β γ : Type} (f : β → Option γ) :
    ∀ l : List β,
      (l.filter (fun a => (f a).isSome)).length = (l.filterMap f).length := by
  intro l
  induction l with
  | nil => rfl
  | cons x xs ih =>
    simp only [List.filter_cons, List.filterMap_cons]
    cases hfx : f x with
    | none => simpa [hfx] using ih
    | some v => simpa [hfx] using ih

/-- Filtering an ordered insertion by an exact count: elements skipped on the
way in have strictly larger count, so an inserted element of the filtered
count lands at the front of the filtered list, and any other insertion leaves
the filtered list unchanged. -/
theorem filter_orderedInsert_count (c : Nat) (x : ValueCount) :
    ∀ l : List ValueCount,
      (List.orderedInsert vcGe x l).filter (fun v => v.count == c) =
        if x.count == c then x :: l.filter (fun v => v.count == c)
        else l.filter (fun v => v.count == c) := by
  intro l
  induction l with
  | nil =>
    by_cases hx : x.count = c <;> simp [List.orderedInsert, hx]
  | cons y ys ih =>
    by_cases hxy : vcGe x y
    · simp only [List.orderedInsert, if_pos hxy]
      by_cases hx : x.count = c <;> simp [List.filter_cons, hx]
    · simp only [List.orderedInsert, if_neg hxy]
      by_cases hx : x.count = c
      · have hy : ¬ (y.count = c) := by
          intro hyc
          exact hxy (show vcGe x y by unfold vcGe; omega)
        simp [List.filter_cons, hx, hy, ih]
      · by_cases hy : y.count = c <;> simp [List.filter_cons, hx, hy, ih]

/-- Stability of the descending-count insertion sort, expressed through exact
count filters: the elements of any given count keep their original order. -/
theorem filter_insertionSort_count (c : Nat) :
    ∀ l : List ValueCount,
      (List.insertionSort vcGe l).filter (fun v => v.count == c) =
        l.filter (fun v => v.count == c) := by
  intro l
  induction l with
  | nil => rfl
  | cons x xs ih =>
    simp only [List.insertionSort, filter_orderedInsert_count, ih]
    by_cases hx : x.count = c <;> simp [List.filter_cons, hx]

/-- Keys of the counts object after one bump: unchanged when the key was
present, appended otherwise. -/
theorem bumpCount_keys (t : String) :
    ∀ m : List (String × Nat),
      (bumpCount m t).map Prod.fst =
        if t ∈ m.map Prod.fst then m.map Prod.fst
        else m.map Prod.fst ++ [t] := by
  intro m
  induction m with
  | nil => simp [bumpCount]
  | cons e rest ih =>
    obtain ⟨k, c⟩ := e
    by_cases hk : k = t
    · simp [bumpCount, hk]
    · have hk' : ¬ (t = k) := fun h => hk h.symm
      simp only [bumpCount, if_neg hk, List.map_cons, ih]
      by_cases hm : t ∈ rest.map Prod.fst <;> simp [hm, hk']

/-- The counts object keeps its keys distinct across a bump. -/
theorem bumpCount_keys_nodup (t : String) (m : List (String × Nat))
    (h : (m.map Prod.fst).Nodup) : ((bumpCount m t).map Prod.fst).Nodup := by
  rw [bumpCount_keys]
  by_cases hm : t ∈ m.map Prod.fst
  · simpa [hm] using h
  · simp only [if_neg hm]
    simp [List.nodup_append, h, hm]

/-- Looking a key up after a bump: the bumped key reads one higher (from a
default of zero), every other key is untouched. -/
theorem bumpCount_lookup (t s : String) :
    ∀ m : List (String × Nat),
      (bumpCount m t).lookup s =
        if t = s then some ((m.lookup s).getD 0 + 1) else m.lookup s := by
  intro m
  induction m with
  | nil =>
    by_cases hts : t = s
    · subst hts
      simp [bumpCount, List.lookup]
    · have hb : (s == t) = false := beq_eq_false_iff_ne.mpr (fun h => hts h.symm)
      simp [bumpCount, List.lookup, hb, hts]
  | cons e rest ih =>
    obtain ⟨k, c⟩ := e
    by_cases hk : k = t
    · subst hk
      by_cases hts : k = s
      · subst hts
        simp [bumpCount, List.lookup]
      · have hb : (s == k) = false := beq_eq_false_iff_ne.mpr (fun h => hts h.symm)
        simp [bumpCount, List.lookup, hb, hts]
    · have hkt : ¬ (k = t) := hk
      by_cases hsk : s = k
      · subst hsk
        have hts : ¬ (t = s) := fun h => hk h.symm
        simp [bumpCount, List.lookup, if_neg hkt, hts]
      · have hb : (s == k) = false := beq_eq_false_iff_ne.mpr hsk
        simp [bumpCount, List.lookup, if_neg hkt, hb, ih]

/-- Lookup after the whole counting loop: the accumulator's entry for `s`
rises by the number of rows whose string form is `s`. -/
theorem buildCounts_fold_lookup (column s : String) :
    ∀ (data : List DataPoint) (m : List (String × Nat)),
      (data.foldl (fun m' row => bumpCount m' (strOfCell (getCell row column))) m).lookup s =
        if occCount data column s = 0 then m.lookup s
        else some ((m.lookup s).getD 0 + occCount data column s) := by
  intro data
  induction data with
  | nil => intro m; simp [occCount]
  | cons row rows ih =>
    intro m
    simp only [List.foldl_cons]
    rw [ih]
    by_cases ht : strOfCell (getCell row column) = s
    · have hocc : occCount (row :: rows) column s = occCount rows column s + 1 := by
        simp [occCount, List.filter_cons, ht]
      rw [bumpCount_lookup, if_pos ht, hocc]
      by_cases h0 : occCount rows column s = 0
      · simp [h0]
      · simp [h0]
        omega
    · have hocc : occCount (row :: rows) column s = occCount rows column s := by
        have hb : (strOfCell (getCell row column) == s) = false :=
          beq_eq_false_iff_ne.mpr ht
        simp [occCount, List.filter_cons, hb]
      rw [bumpCount_lookup, if_neg ht, hocc]

/-- The counts object maps `s` to the number of rows whose string form is `s`
(absent when that number is zero). -/
theorem buildCounts_lookup (data : List DataPoint) (column s : String) :
    (buildCounts data column).lookup s =
      if occCount data column s = 0 then none
      else some (occCount data column s) := by
  have h := buildCounts_fold_lookup column s data []
  simpa [buildCounts, List.lookup] using h

/-- The counting loop keeps the object's keys distinct. -/
theorem buildCounts_keys_nodup (data : List DataPoint) (column : String) :
    ((buildCounts data column).map Prod.fst).Nodup := by
  suffices h : ∀ (d : List DataPoint) (m : List (String × Nat)),
      (m.map Prod.fst).Nodup →
      ((d.foldl (fun m' row => bumpCount m' (strOfCell (getCell row column))) m).map
        Prod.fst).Nodup by
    exact h data [] (by simp)
  intro d
  induction d with
  | nil => intro m hm; simpa using hm
  | cons row rows ih =>
    intro m hm
    simp only [List.foldl_cons]
    exact ih _ (bumpCount_keys_nodup _ m hm)

/-- On an association list with distinct keys, filtering by a key is the same
as looking it up. -/
theorem filter_key_eq_lookup (s : String) :
    ∀ m : List (String × Nat), (m.map Prod.fst).Nodup →
      m.filter (fun e => e.1 == s) =
        (match m.lookup s with
          | none => ([] : List (String × Nat))
          | some c => [(s, c)]) := by
  intro m
  induction m with
  | nil => intro _; rfl
  | cons e rest ih =>
    intro hnd
    obtain ⟨k, c⟩ := e
    have hnd' : (k :: rest.map Prod.fst).Nodup := by simpa using hnd
    have hk_not : k ∉ rest.map Prod.fst := (List.nodup_cons.mp hnd').1
    have hrest : (rest.map Prod.fst).Nodup := (List.nodup_cons.mp hnd').2
    by_cases hks : k = s
    · subst hks
      have hrf : rest.filter (fun e => e.1 == k) = [] := by
        rw [List.filter_eq_nil_iff]
        intro e he hbe
        exact hk_not (by
          have : e.1 = k := by simpa using hbe
          exact this ▸ List.mem_map_of_mem Prod.fst he)
      simp [List.filter_cons, List.lookup, hrf]
    · have hb : (k == s) = false := beq_eq_false_iff_ne.mpr hks
      have hb' : (s == k) = false := beq_eq_false_iff_ne.mpr (fun h => hks h.symm)
      simp only [List.filter_cons, hb, Bool.false_eq_true, if_neg,
        List.lookup, hb']
      exact ih hrest

/-- `getValueCounts` is a permutation of the raw counts entries (the
`Object.entries` reordering and the sort both only permute). -/
theorem getValueCounts_perm (data : List DataPoint) (column : String) :
    (getValueCounts data column).Perm
      ((buildCounts data column).map
        (fun e => (⟨Cell.str e.1, e.2⟩ : ValueCount))) := by
  unfold getValueCounts
  refine (List.perm_insertionSort vcGe _).trans ?_
  refine List.Perm.map _ ?_
  unfold entriesOf
  refine List.Perm.trans ?_ (List.filter_append_perm (fun e => isArrayIndex e.1) _)
  exact List.Perm.append (List.perm_insertionSort _ _) (List.Perm.refl _)

/-! ## Claim theorems -/

/-- C1: fitting on the perfectly collinear `X = [[1,2],[2,4],[3,6]]` drives the
solver to the normal-equations system `[[3,6,12],[6,14,28],[12,28,56]]·β =
[6,14,28]`, whose forward elimination (after partial pivoting) leaves a zero
pivot in position `(2,2)` — yet `trainLinearRegression` raises no
`SingularSystem` error: it silently divides by that zero pivot (producing `NaN`
coefficients in JS, rendered by the `ℚ` model as the finite garbage vector
`β = [0,1,0]`) and returns a model.  This evaluates the code at the failing
input of the claim. -/
theorem claim1_zero_pivot_no_error :
    solveLeastSquares [[1,1,2],[1,2,4],[1,3,6]] [1,2,3] =
        gaussianElimination [[3,6,12],[6,14,28],[12,28,56]] [6,14,28] ∧
      getE (forwardEliminate
        (geAugment [[3,6,12],[6,14,28],[12,28,56]] [6,14,28]) 3) 2 2 = 0 ∧
      trainLinearRegression [[1,2],[2,4],[3,6]] [1,2,3] =
        Except.ok ⟨[1,0], 0, 1⟩ := by
  refine ⟨?_, ?_, ?_⟩
  · with_unfolding_all decide
  · with_unfolding_all decide
  · with_unfolding_all rfl

/-- C2: for every `X`, `y` of equal modelling domain, every
`testFraction ∈ [0, 1]`, every seed (or none), and every state of the random
source, the test index set has exactly `floor(n · testFraction)` elements, the
train index set the remaining `n - testCount`, the two are disjoint, their
union is a permutation of `{0..n-1}`, and the four returned row lists have the
corresponding sizes — so every row appears in exactly one split; a zero
`testCount` is just the degenerate value of the same formula, not an error. -/
theorem claim2_split_partition (orac : Nat → ℚ)
    (horac : ∀ k, 0 ≤ orac k ∧ orac k < 1)
    (X : List (List ℚ)) (y : List ℚ) (ts : ℚ)
    (_hts0 : 0 ≤ ts) (hts1 : ts ≤ 1)
    (randomState : Option Nat) (g : MathRandom) :
    (splitIndices orac X.length ts randomState g).1.2.length =
        (⌊(X.length : ℚ) * ts⌋).toNat ∧
      (splitIndices orac X.length ts randomState g).1.1.length =
        X.length - (⌊(X.length : ℚ) * ts⌋).toNat ∧
      List.Disjoint (splitIndices orac X.length ts randomState g).1.1
        (splitIndices orac X.length ts randomState g).1.2 ∧
      ((splitIndices orac X.length ts randomState g).1.1 ++
          (splitIndices orac X.length ts randomState g).1.2).Perm
        (List.range X.length) ∧
      (trainTestSplit orac X y ts randomState g).1.xTrain.length =
        X.length - (⌊(X.length : ℚ) * ts⌋).toNat ∧
      (trainTestSplit orac X y ts randomState g).1.xTest.length =
        (⌊(X.length : ℚ) * ts⌋).toNat ∧
      (trainTestSplit orac X y ts randomState g).1.yTrain.length =
        X.length - (⌊(X.length : ℚ) * ts⌋).toNat ∧
      (trainTestSplit orac X y ts randomState g).1.yTest.length =
        (⌊(X.length : ℚ) * ts⌋).toNat := by
  have htc := testCount_le X.length ts hts1
  cases randomState with
  | none =>
    have hperm := shuffle_range_perm orac horac X.length g
    have core := partition_core X.length ((⌊(X.length : ℚ) * ts⌋).toNat) _
      hperm htc
    simp only [splitIndices, trainTestSplit, List.length_map]
    exact ⟨core.1, core.2.1, core.2.2.1, core.2.2.2,
      core.2.1, core.1, core.2.1, core.1⟩
  | some s =>
    have hperm := shuffle_range_perm orac horac X.length (MathRandom.lcg s)
    have core := partition_core X.length ((⌊(X.length : ℚ) * ts⌋).toNat) _
      hperm htc
    simp only [splitIndices, trainTestSplit, List.length_map]
    exact ⟨core.1, core.2.1, core.2.2.1, core.2.2.2,
      core.2.1, core.1, core.2.1, core.1⟩

/-- Witness for C2 at a concrete input: five rows, testFraction `2/5`,
seed 7, starting from the pristine builtin random source. -/
theorem claim2_split_partition_witness :
    ((0 : ℚ) ≤ 2/5 ∧ (2/5 : ℚ) ≤ 1 ∧
        (∀ k : Nat, 0 ≤ (fun _ : Nat => (0 : ℚ)) k ∧ (fun _ : Nat => (0 : ℚ)) k < 1)) ∧
      (splitIndices (fun _ => (0 : ℚ))
            ([[1],[2],[3],[4],[5]] : List (List ℚ)).length (2/5) (some 7)
            (MathRandom.builtin 0)).1.2.length =
          (⌊((([[1],[2],[3],[4],[5]] : List (List ℚ)).length : ℚ)) * (2/5)⌋).toNat ∧
      List.Disjoint
        (splitIndices (fun _ => (0 : ℚ))
          ([[1],[2],[3],[4],[5]] : List (List ℚ)).length (2/5) (some 7)
          (MathRandom.builtin 0)).1.1
        (splitIndices (fun _ => (0 : ℚ))
          ([[1],[2],[3],[4],[5]] : List (List ℚ)).length (2/5) (some 7)
          (MathRandom.builtin 0)).1.2 := by
  have h := claim2_split_partition (fun _ => (0 : ℚ))
    (fun k => by norm_num) [[1],[2],[3],[4],[5]] [10,20,30,40,50] (2/5)
    (by norm_num) (by norm_num) (some 7) (MathRandom.builtin 0)
  exact ⟨⟨by norm_num, by norm_num, fun k => by norm_num⟩, h.1, h.2.2.1⟩

/-- C3: two invocations of `trainTestSplit` with the same seed and the same
`(X, y, testFraction)` produce the identical split, whatever builtin random
oracle is ambient and whatever state the process-wide `Math.random` is in when
each call starts — seeded determinism with no hidden shared state influencing
the result. -/
theorem claim3_seeded_split_deterministic (orac orac' : Nat → ℚ)
    (g g' : MathRandom) (X : List (List ℚ)) (y : List ℚ) (ts : ℚ) (s : Nat) :
    (trainTestSplit orac X y ts (some s) g).1 =
      (trainTestSplit orac' X y ts (some s) g').1 := by
  rw [trainTestSplit_seeded_const orac, trainTestSplit_seeded_const orac']

/-- C4: a seeded call of `trainTestSplit` does NOT leave the process-wide
`Math.random` unchanged: starting from the pristine builtin source, the call
returns with `Math.random` replaced by the LCG closure (state 179590 after the
four draws of a 5-row shuffle seeded with 42), so later unseeded calls are
affected.  This evaluates the code at the failing input of the claim. -/
theorem claim4_global_random_overwritten (orac : Nat → ℚ) :
    (trainTestSplit orac [[1],[2],[3],[4],[5]] [1,2,3,4,5] (1/5) (some 42)
        (MathRandom.builtin 0)).2 = MathRandom.lcg 179590 ∧
      MathRandom.lcg 179590 ≠ MathRandom.builtin 0 := by
  constructor
  · simp only [trainTestSplit, splitIndices]
    rw [shuffleAux_snd]
    norm_num [Function.iterate_succ_apply, draw, lcgNext]
  · decide

/-- C5: on a nonempty feature matrix with `p ≥ 2` features per row (and a
target of matching length), `trainLinearRegression` takes the multi-feature
branch: it prepends a constant 1 column to form the design matrix `D`, builds
the `(p+1)×(p+1)` normal equations `Dᵗ·D·β = Dᵗ·y`, solves them with the
Gaussian-elimination solver, and returns a model whose intercept is `β[0]` and
whose coefficients are `β[1..p]` in input feature order. -/
theorem claim5_normal_equations (X : List (List ℚ)) (y : List ℚ)
    (hX : X ≠ []) (hp : 2 ≤ (X.headD []).length) (hy : y.length = X.length) :
    ∃ m, trainLinearRegression X y = Except.ok m ∧
      m.intercept = (specBeta X y).getD 0 0 ∧
      m.coefficients = (specBeta X y).drop 1 := by
  cases X with
  | nil => exact absurd rfl hX
  | cons x0 rest =>
    have hne : ¬ (x0.length = 1) := by
      simp only [List.headD_cons] at hp
      omega
    have hD : y.length = ((x0 :: rest).map (fun row => (1 : ℚ) :: row)).length := by
      simpa using hy
    simp only [trainLinearRegression, if_neg hne]
    refine ⟨_, rfl, ?_, ?_⟩
    · simp only [specBeta]
      rw [solveLeastSquares_eq_spec _ _ hD]
    · simp only [specBeta]
      rw [solveLeastSquares_eq_spec _ _ hD]

/-- Witness for C5 at a concrete input: `X = [[1,0],[0,1],[1,1]]` (two
features), `y = [1,2,3]`. -/
theorem claim5_normal_equations_witness :
    (([[1,0],[0,1],[1,1]] : List (List ℚ)) ≠ [] ∧
        2 ≤ (([[1,0],[0,1],[1,1]] : List (List ℚ)).headD []).length ∧
        ([1,2,3] : List ℚ).length = ([[1,0],[0,1],[1,1]] : List (List ℚ)).length) ∧
      ∃ m, trainLinearRegression ([[1,0],[0,1],[1,1]] : List (List ℚ)) [1,2,3] =
          Except.ok m ∧
        m.intercept = (specBeta ([[1,0],[0,1],[1,1]] : List (List ℚ)) [1,2,3]).getD 0 0 ∧
        m.coefficients = (specBeta ([[1,0],[0,1],[1,1]] : List (List ℚ)) [1,2,3]).drop 1 := by
  refine ⟨⟨by simp, by simp, by simp⟩, ?_⟩
  exact claim5_normal_equations [[1,0],[0,1],[1,1]] [1,2,3]
    (by simp) (by simp) (by simp)

/-- C6: invoked with zero rows, `trainLinearRegression` fails by throwing the
JS `TypeError` that reading `X[0].length` on an empty array produces — not an
`InsufficientData` error.  This evaluates the code at the failing input of the
claim. -/
theorem claim6_empty_train_type_error :
    trainLinearRegression [] [] = Except.error JsError.typeError ∧
      JsError.typeError ≠ JsError.insufficientData := by
  exact ⟨rfl, by decide⟩

/-- C7: `calculateMetrics` performs no validation at all: on empty input it
returns a record whose three entries are all non-finite (`NaN` in JS) instead
of an `EmptyInput` error; on `yTrue` longer than `yPred` it likewise returns
all-`NaN` metrics; and on `yTrue` shorter than `yPred` it silently returns
finite numbers computed from a prefix — never a `LengthMismatch` error.  This
evaluates the code at the failing inputs of the claim. -/
theorem claim7_metrics_no_validation :
    calculateMetrics [] [] = ⟨none, none, none⟩ ∧
      calculateMetrics [1,2] [1] = ⟨none, none, none⟩ ∧
      calculateMetrics [1] [1,5] = ⟨none, some 0, some 0⟩ := by
  refine ⟨?_, ?_, ?_⟩ <;> with_unfolding_all decide

/-- C8 counterexample: with column values `[2, 1]` (string forms `"2"`, `"1"`,
both integer-like JS object keys, first encountered in the order `"2"`,
`"1"`), the two entries tie at count 1, yet `getValueCounts` returns them as
`[{“1”,1}, {“2”,1}]` — `Object.entries` enumerates integer-like keys in
ascending numeric order, not first-encountered order — refuting the claimed
tie-breaking at this input. -/
theorem claim8_tie_order_counterexample :
    (buildCounts [[("v", Cell.num 2)], [("v", Cell.num 1)]] "v").map Prod.fst =
        ["2", "1"] ∧
      getValueCounts [[("v", Cell.num 2)], [("v", Cell.num 1)]] "v" =
        [⟨Cell.str "1", 1⟩, ⟨Cell.str "2", 1⟩] ∧
      getValueCounts [[("v", Cell.num 2)], [("v", Cell.num 1)]] "v" ≠
        [⟨Cell.str "2", 1⟩, ⟨Cell.str "1", 1⟩] := by
  refine ⟨?_, ?_, ?_⟩
  · with_unfolding_all decide
  · with_unfolding_all decide
  · with_unfolding_all decide

/-- C8 amended: `getValueCounts` buckets rows by the string representation of
the cell (each returned entry for `s` carries exactly the number of rows whose
string form is `s`), sorts entries by descending count, and breaks ties in JS
`Object.entries` enumeration order — integer-like keys first in ascending
numeric order, then the remaining keys in first-encountered order — rather
than plain first-encountered order; the `["a","b","a","a","c"]` example still
yields `[{a,3},{b,1},{c,1}]`. -/
theorem claim8_value_counts_amended :
    (∀ (data : List DataPoint) (column : String),
        List.Sorted vcGe (getValueCounts data column) ∧
        (∀ c : Nat,
          (getValueCounts data column).filter (fun v => v.count == c) =
            ((entriesOf (buildCounts data column)).map
                (fun e => (⟨Cell.str e.1, e.2⟩ : ValueCount))).filter
              (fun v => v.count == c)) ∧
        (∀ s : String,
          (getValueCounts data column).filter (fun v => v.value == Cell.str s) =
            if occCount data column s = 0 then []
            else [⟨Cell.str s, occCount data column s⟩])) ∧
      getValueCounts
          [[("c", Cell.str "a")], [("c", Cell.str "b")], [("c", Cell.str "a")],
            [("c", Cell.str "a")], [("c", Cell.str "c")]] "c" =
        [⟨Cell.str "a", 3⟩, ⟨Cell.str "b", 1⟩, ⟨Cell.str "c", 1⟩] := by
  constructor
  · intro data column
    refine ⟨List.sorted_insertionSort vcGe _,
      fun c => filter_insertionSort_count c _, fun s => ?_⟩
    have hmap : ((buildCounts data column).map
          (fun e => (⟨Cell.str e.1, e.2⟩ : ValueCount))).filter
            (fun v => v.value == Cell.str s) =
        ((buildCounts data column).filter (fun e => e.1 == s)).map
          (fun e => (⟨Cell.str e.1, e.2⟩ : ValueCount)) := by
      rw [List.filter_map]
      refine congrArg _ (List.filter_congr ?_)
      intro e _
      by_cases h : e.1 = s
      · simp [Function.comp, h]
      · have h1 : (Cell.str e.1 == Cell.str s) = false :=
          beq_eq_false_iff_ne.mpr (by simp [h])
        have h2 : (e.1 == s) = false := beq_eq_false_iff_ne.mpr h
        simp [Function.comp, h1, h2]
    have hfk := filter_key_eq_lookup s (buildCounts data column)
      (buildCounts_keys_nodup data column)
    by_cases h0 : occCount data column s = 0
    · rw [if_pos h0]
      have hperm := (getValueCounts_perm data column).filter
        (fun v => v.value == Cell.str s)
      rw [hmap, hfk, buildCounts_lookup, if_pos h0] at hperm
      simp only [List.map_nil] at hperm
      exact List.perm_nil.mp hperm
    · rw [if_neg h0]
      have hperm := (getValueCounts_perm data column).filter
        (fun v => v.value == Cell.str s)
      rw [hmap, hfk, buildCounts_lookup, if_neg h0] at hperm
      simp only [List.map_cons, List.map_nil] at hperm
      exact List.perm_singleton.mp hperm
  · with_unfolding_all decide

/-- C9: `extractFeatures` never aborts: it is a total filtering pass in which
each feature cell that fails numeric coercion becomes `0`, every row whose
target fails to parse is dropped from both `X` and `y`, and the returned `X`
and `y` have equal length.  Stated for every dataset, feature-column list,
target column, and parse function. -/
theorem claim9_extract_coercion (pf : String → Option ℚ) (data : List DataPoint)
    (fc : List String) (tc : String) :
    (extractFeatures pf data fc tc).1 =
        (data.filter (fun row => (cellToNum pf (getCell row tc)).isSome)).map
          (fun row => fc.map (fun col => (cellToNum pf (getCell row col)).getD 0)) ∧
      (extractFeatures pf data fc tc).2 =
        data.filterMap (fun row => cellToNum pf (getCell row tc)) ∧
      (extractFeatures pf data fc tc).1.length =
        (extractFeatures pf data fc tc).2.length := by
  have h := extractFeatures_fold pf fc tc data ([], [])
  simp only [List.nil_append] at h
  have h1 : (extractFeatures pf data fc tc).1 =
      (data.filter (fun row => (cellToNum pf (getCell row tc)).isSome)).map
        (fun row => fc.map (fun col => (cellToNum pf (getCell row col)).getD 0)) := by
    simp only [extractFeatures, h]
  have h2 : (extractFeatures pf data fc tc).2 =
      data.filterMap (fun row => cellToNum pf (getCell row tc)) := by
    simp only [extractFeatures, h]
  refine ⟨h1, h2, ?_⟩
  rw [h1, h2, List.length_map]
  exact filter_isSome_length _ data

/-- C10: every entry `getValueCounts` returns carries a string `value` — the
string representation of the cell — never a number, whatever the cells were. -/
theorem claim10_value_counts_string (data : List DataPoint) (col : String)
    (v : ValueCount) (hv : v ∈ getValueCounts data col) :
    ∃ s, v.value = Cell.str s := by
  simp only [getValueCounts] at hv
  rw [List.mem_insertionSort] at hv
  obtain ⟨e, _, rfl⟩ := List.mem_map.mp hv
  exact ⟨e.1, rfl⟩

/-- Witness for C10 at a concrete input in which every cell is numeric: the
column `[1, 1]` yields the single entry `{value: "1", count: 2}`, whose value
is the string `"1"`. -/
theorem claim10_value_counts_string_witness :
    (⟨Cell.str "1", 2⟩ : ValueCount) ∈
        getValueCounts [[("x", Cell.num 1)], [("x", Cell.num 1)]] "x" ∧
      ∃ s, (⟨Cell.str "1", 2⟩ : ValueCount).value = Cell.str s :=
  ⟨by with_unfolding_all decide,
    claim10_value_counts_string [[("x", Cell.num 1)], [("x", Cell.num 1)]] "x"
      ⟨Cell.str "1", 2⟩ (by with_unfolding_all decide)⟩

end MLUtils
